import Mathlib

/-!
Verification development for the `go-light-rag-demo` repository.

The repository wires the external `go-light-rag` library (chunking, LLM-driven
entity extraction, three composed storage backends) into a demo program
(`magefiles/magefile.go`, which also carries the demo `main.go`), plus a
`secrets` package and a mage build helper.

The ingestion core (Chunker, Extractor, Ingestion Orchestrator, storage-port
interfaces) is library code that is not part of this repository's sources;
those parts are modelled from the specification (`spec.md` sections 3, 4, 6
and 7) and each such definition says so in its doc comment.  The `secrets`
package and the mage `build` helper are translated directly from the Go
sources.  Concurrency (the bounded worker pool) and real-time waiting
(`BackoffDuration` sleeps) are not observable in this embedding: chunks are
processed sequentially and the backoff delay is carried as plain
configuration data; the spec itself states that the merged result is
order-independent, which is proved below.
-/

namespace LightRag

/-! ## Association-list store maps

The storage backends are modelled as association lists from keys to stored
records.  `alookup` returns the first binding of a key, `aupsert` merges into
every binding of an existing key (or appends a fresh binding), mirroring
upsert semantics of the stores described in spec section 6. -/

abbrev AMap (κ α : Type) := List (κ × α)

def alookup [DecidableEq κ] {α : Type} : AMap κ α → κ → Option α
  | [], _ => none
  | p :: m, k => if p.1 = k then some p.2 else alookup m k

def aupsert [DecidableEq κ] {α : Type} (mrg : α → α → α) (k : κ) (c : α)
    (m : AMap κ α) : AMap κ α :=
  match alookup m k with
  | some _ => m.map (fun p => if p.1 = k then (k, mrg p.2 c) else p)
  | none => m ++ [(k, c)]

def aupsertMany [DecidableEq κ] {α : Type} (mrg : α → α → α)
    (l : List (κ × α)) (m : AMap κ α) : AMap κ α :=
  l.foldl (fun acc p => aupsert mrg p.1 p.2 acc) m

/-- Last-write-wins merge used by the key-value chunk store and the
per-document manifest. -/
def replaceVal {α : Type} : α → α → α := fun _ c => c

/-! ## Data model (spec section 3) -/

/-- Modelled from the spec: `Document = ID + Content` (spec section 3). -/
structure Document where
  id : String
  content : String
deriving DecidableEq, Repr

/-- Modelled from the spec: a chunk is a bounded text segment with a
deterministic ID derived from `DocID + Order` (spec section 3). -/
structure Chunk where
  id : String
  docID : String
  content : String
  tokenCount : Nat
  order : Nat
deriving DecidableEq, Repr

/-- Modelled from the spec: the merged record stored per entity key (and per
relationship key).  Merging concatenates deduplicated descriptions and unions
`SourceChunkIDs`, so descriptions, recorded raw names and types are kept as
finite sets (spec section 3 merge rule).  Relationship records leave `names`
and `types` empty. -/
structure Cell where
  names : Finset String
  types : Finset String
  descriptions : Finset String
  sourceChunkIDs : Finset String
deriving DecidableEq

/-- Componentwise union: the spec section 3 merge rule. -/
def Cell.merge (a b : Cell) : Cell :=
  ⟨a.names ∪ b.names, a.types ∪ b.types,
   a.descriptions ∪ b.descriptions, a.sourceChunkIDs ∪ b.sourceChunkIDs⟩

def emptyCell : Cell := ⟨∅, ∅, ∅, ∅⟩

/-- Modelled from the spec: error taxonomy of spec section 7. -/
inductive IngestError where
  | invalidConfig
  | extractionFailed
  | storeWriteFailed
  | canceled
deriving DecidableEq, Repr

/-- Modelled from the spec: one raw entity row of the structured LLM
response, before type filtering and chunk tagging (spec section 4.2). -/
structure RawEntity where
  name : String
  type : String
  description : String
deriving DecidableEq, Repr

/-- Modelled from the spec: one raw relationship row of the structured LLM
response (spec section 4.2). -/
structure RawRel where
  source : String
  target : String
  description : String
deriving DecidableEq, Repr

/-- Parsed structured response of the LLM collaborator for one chunk. -/
abbrev ExtractOut := List RawEntity × List RawRel

/-- The LLM collaborator, modelled as a deterministic function of the chunk
and the zero-based attempt number, so that retry behaviour is observable. -/
abbrev LLM := Chunk → Nat → Except IngestError ExtractOut

/-- Modelled from the spec: the configuration surface consumed by the core,
`{ChunkMaxTokenSize, OverlapTokens, EntityTypes, MaxRetries, BackoffDuration,
ConcurrencyCount}` (spec section 6).  `backoffDuration` is in seconds;
waiting itself is real time and outside the embedding. -/
structure IngestConfig where
  chunkMaxTokenSize : Nat
  overlapTokens : Nat
  entityTypes : List String
  maxRetries : Nat
  backoffDuration : Nat
  concurrencyCount : Nat
deriving DecidableEq, Repr

/-- Modelled from the spec: the observable state of the three composed
storage backends: raw chunks in the key-value store, merged entities and
relationships in the graph store, and the per-document manifest of live chunk
IDs used by idempotent re-ingestion (spec sections 4.3 and 9). -/
structure StoreState where
  chunks : AMap String Chunk
  entities : AMap String Cell
  rels : AMap (String × String) Cell
  manifest : AMap String (List String)
deriving DecidableEq

def emptyStore : StoreState := ⟨[], [], [], []⟩

/-! ## Chunker (spec section 4.1) -/

/-- Tokenizer helper: split a character stream on spaces, accumulating the
current word in reverse. -/
def wordsAux : List Char → List Char → List String
  | [], cur => if cur.isEmpty then [] else [String.mk cur.reverse]
  | ch :: rest, cur =>
    if ch = ' ' then
      if cur.isEmpty then wordsAux rest []
      else String.mk cur.reverse :: wordsAux rest []
    else wordsAux rest (ch :: cur)

/-- Modelled from the spec: tokens are whitespace-separated words (spec
section 3, `TokenCount`). -/
def tokenize (s : String) : List String := wordsAux s.data []

def joinWith (sep : String) : List String → String
  | [] => ""
  | [w] => w
  | w :: ws => w ++ sep ++ joinWith sep ws

/-- Modelled from the spec: chunk IDs are derived deterministically from
`DocID + Order` (spec section 3). -/
def chunkID (docID : String) (order : Nat) : String :=
  docID ++ "#" ++ toString order

/-- Produce the chunk starting at token index `start`; continue with stride
`step = maxTokens - overlapTokens` while content remains beyond the current
window.  `fuel` bounds the recursion. -/
def chunkFrom (docID : String) (maxT step : Nat) :
    Nat → Nat → Nat → List String → List Chunk
  | 0, _, _, _ => []
  | fuel + 1, start, ord, toks =>
    let window := (toks.drop start).take maxT
    let c : Chunk :=
      ⟨chunkID docID ord, docID, joinWith " " window, window.length, ord⟩
    if start + maxT < toks.length then
      c :: chunkFrom docID maxT step fuel (start + step) (ord + 1) toks
    else [c]

/-- Modelled from the spec: `Split(doc, maxTokens, overlapTokens)` fails with
`InvalidConfig` if `overlapTokens ≥ maxTokens`, otherwise deterministically
produces bounded overlapping chunks and never drops trailing content (spec
section 4.1).  A document always yields at least one chunk. -/
def split (doc : Document) (maxTokens overlapTokens : Nat) :
    Except IngestError (List Chunk) :=
  if maxTokens ≤ overlapTokens then .error .invalidConfig
  else
    let toks := tokenize doc.content
    .ok (chunkFrom doc.id maxTokens (maxTokens - overlapTokens)
      (toks.length + 1) 0 0 toks)

/-! ## Extractor (spec section 4.2) -/

/-- Modelled from the spec: `Entity.Name` is a case/whitespace-normalized
merge key (spec section 3). -/
def normalizeKey (s : String) : String :=
  String.mk ((((s.data.map Char.toLower).dropWhile (· = ' ')).reverse.dropWhile
    (· = ' ')).reverse)

/-- Modelled from the spec: entity rows whose type is not in the configured
vocabulary are dropped; surviving rows are scoped to the chunk
(`SourceChunkIDs = the chunk's ID`, spec section 4.2). -/
def taggedEntitiesOf (entityTypes : List String) (c : Chunk) (out : ExtractOut) :
    List (String × Cell) :=
  (out.1.filter (fun e => entityTypes.contains e.type)).map
    (fun e => (normalizeKey e.name, ⟨{e.name}, {e.type}, {e.description}, {c.id}⟩))

/-- Modelled from the spec: relationship rows keyed by normalized
`(Source, Target)`, scoped to the chunk (spec sections 3 and 4.2). -/
def taggedRelsOf (c : Chunk) (out : ExtractOut) :
    List ((String × String) × Cell) :=
  out.2.map (fun r =>
    ((normalizeKey r.source, normalizeKey r.target),
     ⟨∅, ∅, {r.description}, {c.id}⟩))

def entitiesFrom (entityTypes : List String)
    (results : List (Chunk × ExtractOut)) : List (String × Cell) :=
  results.flatMap (fun p => taggedEntitiesOf entityTypes p.1 p.2)

def relsFrom (results : List (Chunk × ExtractOut)) :
    List ((String × String) × Cell) :=
  results.flatMap (fun p => taggedRelsOf p.1 p.2)

/-! ## Retry loop (spec sections 4.3 and 9) -/

/-- Modelled from the spec: explicit attempt loop; `attempt` is the zero-based
attempt number and the second argument the number of retries still allowed.
Only `ExtractionFailed` is retried (spec section 7). -/
def attemptLoop (llm : LLM) (c : Chunk) :
    Nat → Nat → Except IngestError ExtractOut
  | attempt, 0 => llm c attempt
  | attempt, rem + 1 =>
    match llm c attempt with
    | .ok r => .ok r
    | .error .extractionFailed => attemptLoop llm c (attempt + 1) rem
    | .error e => .error e

/-- Modelled from the spec: each chunk's extraction is retried up to
`maxRetries` times on `ExtractionFailed` (one initial attempt plus at most
`maxRetries` retries, spec section 4.3 step 3). -/
def extractWithRetry (llm : LLM) (maxRetries : Nat) (c : Chunk) :
    Except IngestError ExtractOut :=
  attemptLoop llm c 0 maxRetries

/-- Modelled from the spec: extraction over all chunks, fail-fast at the
document level once any chunk exhausts its retry budget (spec section 4.3
step 3). -/
def extractAll (llm : LLM) (maxRetries : Nat) :
    List Chunk → Except IngestError (List (Chunk × ExtractOut))
  | [] => .ok []
  | c :: rest =>
    match extractWithRetry llm maxRetries c with
    | .error e => .error e
    | .ok r =>
      match extractAll llm maxRetries rest with
      | .error e => .error e
      | .ok rs => .ok ((c, r) :: rs)

/-! ## Write phase (spec section 4.3 steps 5 and 6) -/

/-- Modelled from the spec: previously stored chunk IDs no longer produced by
the new split (spec section 4.3 step 6). -/
def removedIDs (docID : String) (newIDs : List String) (st : StoreState) :
    List String :=
  ((alookup st.manifest docID).getD []).filter (fun cid => !(newIDs.contains cid))

def eraseChunks (removed : List String) (m : AMap String Chunk) :
    AMap String Chunk :=
  m.filter (fun p => !(removed.contains p.1))

def stripCell (removed : List String) (c : Cell) : Cell :=
  { c with sourceChunkIDs := c.sourceChunkIDs \ removed.toFinset }

/-- Modelled from the spec: drop the removed chunk IDs from every stored
record and prune records whose `SourceChunkIDs` become empty (spec section
4.3 step 6). -/
def pruneMap {κ : Type} (removed : List String) (m : AMap κ Cell) : AMap κ Cell :=
  m.filterMap (fun p =>
    if (stripCell removed p.2).sourceChunkIDs = ∅ then none
    else some (p.1, stripCell removed p.2))

/-- Modelled from the spec: the storage writes of one `Ingest` call — remove
stale chunks, prune their contributions, then upsert the new chunks, the
merged entities and relationships, and the document manifest (spec section
4.3 steps 5 and 6). -/
def writePhase (docID : String) (chunks : List Chunk)
    (es : List (String × Cell)) (rs : List ((String × String) × Cell))
    (st : StoreState) : StoreState :=
  let newIDs := chunks.map (fun c => c.id)
  let removed := removedIDs docID newIDs st
  { chunks := aupsertMany replaceVal (chunks.map (fun c => (c.id, c)))
      (eraseChunks removed st.chunks)
    entities := aupsertMany Cell.merge es (pruneMap removed st.entities)
    rels := aupsertMany Cell.merge rs (pruneMap removed st.rels)
    manifest := aupsert replaceVal docID newIDs st.manifest }

/-- Modelled from the spec: the ingestion orchestrator, spec section 4.3 —
chunk, extract with bounded retries (fail-fast), merge across the document,
write to the composed stores.  Chunks are processed sequentially here; the
worker pool of `ConcurrencyCount` only affects scheduling, and
order-independence of the merged result is proved separately. -/
def ingest (cfg : IngestConfig) (llm : LLM) (doc : Document)
    (st : StoreState) : Except IngestError StoreState :=
  match split doc cfg.chunkMaxTokenSize cfg.overlapTokens with
  | .error e => .error e
  | .ok chunks =>
    match extractAll llm cfg.maxRetries chunks with
    | .error e => .error e
    | .ok results =>
      .ok (writePhase doc.id chunks (entitiesFrom cfg.entityTypes results)
        (relsFrom results) st)

instance {ε α : Type} [DecidableEq ε] [DecidableEq α] : DecidableEq (Except ε α)
  | .ok a, .ok b =>
    if h : a = b then .isTrue (by rw [h]) else .isFalse (by simp [h])
  | .ok _, .error _ => .isFalse (by simp)
  | .error _, .ok _ => .isFalse (by simp)
  | .error e, .error f =>
    if h : e = f then .isTrue (by rw [h]) else .isFalse (by simp [h])

/-! ## Composed store (spec section 6; `store` struct in the demo `main.go`)

The demo's `store` type embeds the `Neo4J`, `Chromem` and `Bolt` backends.
The three storage-port interfaces themselves are library declarations
modelled from spec section 6; each abstract operation is identified by a
port-qualified constructor. -/

/-- Modelled from the spec: the operations of the three storage-port
contracts of spec section 6. -/
inductive PortOp where
  | kvPut
  | kvGet
  | kvDelete
  | vecUpsert
  | vecQuery
  | vecDelete
  | graphUpsertEntity
  | graphUpsertRelationship
  | graphNeighbors
  | graphDeleteEntity
  | graphClose
deriving DecidableEq, Repr

/-- Modelled from the spec: `KeyValueStore = Put / Get / Delete`. -/
def keyValueStorePort : List PortOp := [.kvPut, .kvGet, .kvDelete]

/-- Modelled from the spec: `VectorStore = Upsert / Query / Delete`. -/
def vectorStorePort : List PortOp := [.vecUpsert, .vecQuery, .vecDelete]

/-- Modelled from the spec: `GraphStore = UpsertEntity / UpsertRelationship /
Neighbors / DeleteEntity / Close`. -/
def graphStorePort : List PortOp :=
  [.graphUpsertEntity, .graphUpsertRelationship, .graphNeighbors,
   .graphDeleteEntity, .graphClose]

/-- The demo's composed `store` struct: one embedded backend per port
(`store{Neo4J: graph, Chromem: vec, Bolt: kv}` in `main.go`). -/
structure ComposedStore where
  neo4jOps : List PortOp
  chromemOps : List PortOp
  boltOps : List PortOp
deriving DecidableEq

/-- Method set promoted from the three embedded backends. -/
def ComposedStore.methodSet (s : ComposedStore) : List PortOp :=
  s.neo4jOps ++ s.chromemOps ++ s.boltOps

/-- A value satisfies a port interface when it provides every operation of
that port. -/
def satisfiesPort (s : ComposedStore) (port : List PortOp) : Prop :=
  ∀ op ∈ port, op ∈ s.methodSet

instance (s : ComposedStore) (port : List PortOp) :
    Decidable (satisfiesPort s port) := by
  unfold satisfiesPort; infer_instance

/-- The store value built in the demo `main.go`: Neo4J backs the graph port,
Chromem the vector port, Bolt the key-value port. -/
def demoStore : ComposedStore :=
  ⟨graphStorePort, vectorStorePort, keyValueStorePort⟩

/-! ## Demo configuration (`handler.Default` literal in `main.go`)

A Go struct literal leaves unmentioned fields at their zero value.  The
literal is recorded field by field, `some` for fields the demo sets,
`none` for fields it omits. -/

structure HandlerLiteral where
  chunkMaxTokenSize : Option Nat
  overlapTokens : Option Nat
  entityTypes : Option (List String)
  maxRetries : Option Nat
  backoffDuration : Option Nat
  concurrencyCount : Option Nat
deriving DecidableEq

/-- The `handler.Default` literal of the demo `main.go`: it sets
`ChunkMaxTokenSize`, `EntityTypes`, `MaxRetries`, `BackoffDuration` (3s) and
`ConcurrencyCount`, and does not mention `OverlapTokens`. -/
def demoHandlerLiteral : HandlerLiteral :=
  { chunkMaxTokenSize := some 1500
    overlapTokens := none
    entityTypes := some ["character", "organization", "location",
      "time period", "object", "theme", "event"]
    maxRetries := some 5
    backoffDuration := some 3
    concurrencyCount := some 5 }

/-- Go zero-value semantics: every omitted field of the struct literal is
filled with the type's zero value. -/
def materialize (h : HandlerLiteral) : IngestConfig :=
  { chunkMaxTokenSize := h.chunkMaxTokenSize.getD 0
    overlapTokens := h.overlapTokens.getD 0
    entityTypes := h.entityTypes.getD []
    maxRetries := h.maxRetries.getD 0
    backoffDuration := h.backoffDuration.getD 0
    concurrencyCount := h.concurrencyCount.getD 0 }

/-- The configuration the demo's `Insert` call actually consumes. -/
def cfgDemo : IngestConfig := materialize demoHandlerLiteral

/-- The document ingested by the demo `main.go`. -/
def docDemo : Document :=
  ⟨"doc-1", "Neo4j stores entities; ChromeM stores vectors; Bolt stores chunks."⟩

/-- Modelled from the spec: the LLM collaborator behaviour assumed by the
spec section 8 scenario — for the demo document it extracts the three
backend-name entities, each of the configured type `object`. -/
def llmDemo : LLM := fun _ _ =>
  .ok ([⟨"Neo4j", "object", "stores entities"⟩,
        ⟨"ChromeM", "object", "stores vectors"⟩,
        ⟨"Bolt", "object", "stores chunks"⟩], [])

/-! ## `secrets` package (`internal/tools/secrets/secrets.go`)

`LoadConfig` reads `ACCESS_TOKEN` and `ORGANIZATION_ID` from the
environment, modelled as a total function from variable names to values
(`""` for unset, as `os.Getenv` returns).  `uuid.Parse` is an external
collaborator, abstracted as a boolean predicate. -/

def loadConfig (parseUUID : String → Bool) (env : String → String) :
    Except String (String × String) :=
  let accessToken := env "ACCESS_TOKEN"
  let organizationID := env "ORGANIZATION_ID"
  if accessToken = "" ∨ organizationID = "" then
    .error "ACCESS_TOKEN and ORGANIZATION_ID must be set"
  else if parseUUID organizationID then .ok (accessToken, organizationID)
  else .error "invalid uuid"

/-- Translation of `SetEnvironmentVariables` from `secrets.go`: walk the secrets in order,
skip entries with an empty `Key`, call `os.Setenv` on the rest and stop at
the first failure.  `setenvOk k v` tells whether the `os.Setenv` call
succeeds; the returned list is the sequence of `Setenv` calls performed, the
`Option String` the returned error. -/
def setEnvironmentVariables (setenvOk : String → String → Bool) :
    List (String × String) → List (String × String) × Option String
  | [] => ([], none)
  | s :: rest =>
    if s.1 = "" then setEnvironmentVariables setenvOk rest
    else if setenvOk s.1 s.2 then
      let out := setEnvironmentVariables setenvOk rest
      (s :: out.1, out.2)
    else ([], some ("error setting env var for key " ++ s.1))

/-! ## Mage build helper (`magefiles/magefile.go`) -/

def binDir : String := ".builds"

def binaryName : String := "lrag"

def goFiles : String := "./cmd"

/-- Model of `filepath.Join` on a two-segment relative path. -/
def filepathJoin (a b : String) : String := a ++ "/" ++ b

/-- One recorded invocation of the mage `build` helper: the directory it
creates, the cross-compilation environment, the `go build` arguments and the
output path. -/
structure BuildInvocation where
  mkdir : String
  env : List (String × String)
  cmdArgs : List String
  output : String
deriving DecidableEq

/-- The `build(goos, goarch)` helper of `magefiles/magefile.go`. -/
def build (goos goarch : String) : BuildInvocation :=
  let output := filepathJoin binDir (binaryName ++ "_" ++ goos ++ "_" ++ goarch)
  let output := if goos = "windows" then output ++ ".exe" else output
  { mkdir := binDir
    env := [("GOOS", goos), ("GOARCH", goarch), ("CGO_ENABLED", "0")]
    cmdArgs := ["build", "-ldflags=-s -w", "-o", output, goFiles ++ "/cli"]
    output := output }

/-- Accumulate the contributions for key `k` in `l` onto `v`, left to right;
this is the per-binding effect of replaying an upsert sequence. -/
def contribFold [DecidableEq κ] {α : Type} (mrg : α → α → α) (k : κ) (v : α)
    (l : List (κ × α)) : α :=
  l.foldl (fun w p => if p.1 = k then mrg w p.2 else w) v

/-- The contributions carried by key `k` in an upsert sequence, in order. -/
def contribsFor [DecidableEq κ] {α : Type} (k : κ) (l : List (κ × α)) :
    List α :=
  l.filterMap (fun p => if p.1 = k then some p.2 else none)

/-! ## Concrete sample inputs used by the closed evaluation theorems -/

/-- The single chunk the demo document splits into. -/
def chunkDemo : Chunk :=
  ⟨"doc-1#0", "doc-1",
   "Neo4j stores entities; ChromeM stores vectors; Bolt stores chunks.", 9, 0⟩

/-- The store contents after the demo ingestion. -/
def stDemo : StoreState :=
  ⟨[("doc-1#0", chunkDemo)],
   [("neo4j", ⟨{"Neo4j"}, {"object"}, {"stores entities"}, {"doc-1#0"}⟩),
    ("chromem", ⟨{"ChromeM"}, {"object"}, {"stores vectors"}, {"doc-1#0"}⟩),
    ("bolt", ⟨{"Bolt"}, {"object"}, {"stores chunks"}, {"doc-1#0"}⟩)],
   [],
   [("doc-1", ["doc-1#0"])]⟩

def docW : Document := ⟨"d", "a b"⟩

def cfgW : IngestConfig := ⟨10, 2, ["object"], 0, 0, 1⟩

def llmW : LLM := fun _ _ => .ok ([⟨"A", "object", "x"⟩], [⟨"A", "B", "r"⟩])

/-- The store contents after ingesting `docW` with `cfgW` and `llmW`. -/
def stW : StoreState :=
  ⟨[("d#0", ⟨"d#0", "d", "a b", 2, 0⟩)],
   [("a", ⟨{"A"}, {"object"}, {"x"}, {"d#0"}⟩)],
   [(("a", "b"), ⟨∅, ∅, {"r"}, {"d#0"}⟩)],
   [("d", ["d#0"])]⟩

def cfgR : IngestConfig := ⟨3, 1, ["object"], 5, 3, 5⟩

/-- A collaborator that fails with `ExtractionFailed` on attempts `0`–`4` and
succeeds on attempt `5`. -/
def llmEventualOk : LLM := fun _ a =>
  if a < 5 then .error .extractionFailed else .ok ([], [])

/-- A collaborator that always fails with `ExtractionFailed`. -/
def llmNeverOk : LLM := fun _ _ => .error .extractionFailed

def chunkA : Chunk := ⟨"d#0", "d", "a", 1, 0⟩

def chunkB : Chunk := ⟨"d#1", "d", "b", 1, 1⟩

def outA : ExtractOut := ([⟨"A", "object", "da"⟩], [])

def outB : ExtractOut :=
  ([⟨"A", "object", "db"⟩, ⟨"B", "object", "e"⟩], [⟨"A", "B", "r"⟩])

def resultsAB : List (Chunk × ExtractOut) := [(chunkA, outA), (chunkB, outB)]

def resultsBA : List (Chunk × ExtractOut) := [(chunkB, outB), (chunkA, outA)]

def cfgBad : IngestConfig := ⟨2, 3, [], 4, 0, 1⟩

def secretsW : List (String × String) :=
  [("", "ignored"), ("K1", "v1"), ("K2", "v2")]

def okAll : String → String → Bool := fun _ _ => true

/-! ## Lemmas about the store maps -/

theorem map_eq_self_of {α : Type _} {f : α → α} :
    ∀ {m : List α}, (∀ p ∈ m, f p = p) → m.map f = m
  | [], _ => rfl
  | p :: m, h => by
    simp only [List.map_cons, h p (List.mem_cons_self p m),
      map_eq_self_of (fun q hq => h q (List.mem_cons_of_mem p hq))]

theorem filterMap_eq_self_of {α : Type _} {f : α → Option α} :
    ∀ {m : List α}, (∀ p ∈ m, f p = some p) → m.filterMap f = m
  | [], _ => rfl
  | p :: m, h => by
    simp only [List.filterMap_cons, h p (List.mem_cons_self p m),
      filterMap_eq_self_of (fun q hq => h q (List.mem_cons_of_mem p hq))]

theorem alookup_eq_none_iff [DecidableEq κ] {α : Type} {m : AMap κ α} {k : κ} :
    alookup m k = none ↔ ∀ p ∈ m, p.1 ≠ k := by
  induction m with
  | nil => simp [alookup]
  | cons p m ih =>
    by_cases h : p.1 = k <;> simp [alookup, h, ih]

theorem alookup_append_left [DecidableEq κ] {α : Type} {m l : AMap κ α}
    {k : κ} (h : (alookup m k).isSome) :
    alookup (m ++ l) k = alookup m k := by
  induction m with
  | nil => simp [alookup] at h
  | cons p m ih =>
    by_cases hp : p.1 = k <;> simp_all [alookup]

theorem alookup_map_upFun [DecidableEq κ] {α : Type} {mrg : α → α → α}
    {k : κ} {c : α} (m : AMap κ α) (k' : κ) :
    alookup (m.map (fun p => if p.1 = k then (k, mrg p.2 c) else p)) k' =
      (alookup m k').map (fun v => if k' = k then mrg v c else v) := by
  induction m with
  | nil => simp [alookup]
  | cons p m ih =>
    simp only [List.map_cons]
    by_cases hp : p.1 = k
    · rw [if_pos hp]
      by_cases hk' : k = k'
      · subst hk'
        simp [alookup, hp]
      · have hpk' : p.1 ≠ k' := by rw [hp]; exact hk'
        simp [alookup, hpk', hk', ih]
    · rw [if_neg hp]
      by_cases hk' : p.1 = k'
      · have hne : ¬ (k' = k) := fun hh => hp (hk'.trans hh)
        simp [alookup, hk', hne]
      · simp [alookup, hk', ih]

theorem alookup_append_singleton_self [DecidableEq κ] {α : Type}
    {m : AMap κ α} {k : κ} {c : α} (h : alookup m k = none) :
    alookup (m ++ [(k, c)]) k = some c := by
  induction m with
  | nil => simp [alookup]
  | cons p m ih =>
    have hp : p.1 ≠ k := (alookup_eq_none_iff.mp h) p (List.mem_cons_self p m)
    simp only [List.cons_append, alookup, hp, if_false]
    exact ih (by simpa [alookup, hp] using h)

theorem alookup_upsert_self_of_none [DecidableEq κ] {α : Type}
    {mrg : α → α → α} {k : κ} {c : α} {m : AMap κ α}
    (h : alookup m k = none) :
    alookup (aupsert mrg k c m) k = some c := by
  unfold aupsert
  rw [h]
  exact alookup_append_singleton_self h

theorem alookup_upsert_self_of_some [DecidableEq κ] {α : Type}
    {mrg : α → α → α} {k : κ} {c v : α} {m : AMap κ α}
    (h : alookup m k = some v) :
    alookup (aupsert mrg k c m) k = some (mrg v c) := by
  unfold aupsert
  rw [h, alookup_map_upFun, h]
  simp

theorem alookup_upsert_ne [DecidableEq κ] {α : Type} (mrg : α → α → α)
    {k k' : κ} (c : α) (m : AMap κ α) (h : k' ≠ k) :
    alookup (aupsert mrg k c m) k' = alookup m k' := by
  unfold aupsert
  cases hm : alookup m k with
  | some v =>
    rw [alookup_map_upFun]
    simp [h]
  | none =>
    clear hm
    induction m with
    | nil =>
      simp only [List.nil_append, alookup]
      rw [if_neg (fun hh => h hh.symm)]
    | cons p m ih =>
      by_cases hp : p.1 = k'
      · simp [alookup, hp]
      · simp only [List.cons_append, alookup, hp, if_false]
        exact ih

theorem alookup_upsert_isSome [DecidableEq κ] {α : Type} (mrg : α → α → α)
    (k : κ) (c : α) (m : AMap κ α) {k' : κ}
    (h : (alookup m k').isSome) :
    (alookup (aupsert mrg k c m) k').isSome := by
  by_cases hk : k' = k
  · subst hk
    cases hm : alookup m k' with
    | some v => rw [alookup_upsert_self_of_some hm]; rfl
    | none => rw [alookup_upsert_self_of_none hm]; rfl
  · rwa [alookup_upsert_ne mrg c m hk]

theorem alookup_upsert_self_isSome [DecidableEq κ] {α : Type}
    (mrg : α → α → α) (k : κ) (c : α) (m : AMap κ α) :
    (alookup (aupsert mrg k c m) k).isSome := by
  cases hm : alookup m k with
  | some v => rw [alookup_upsert_self_of_some hm]; rfl
  | none => rw [alookup_upsert_self_of_none hm]; rfl

theorem aupsertMany_cons [DecidableEq κ] {α : Type} (mrg : α → α → α)
    (p : κ × α) (l : List (κ × α)) (m : AMap κ α) :
    aupsertMany mrg (p :: l) m = aupsertMany mrg l (aupsert mrg p.1 p.2 m) :=
  rfl

theorem aupsertMany_append [DecidableEq κ] {α : Type} (mrg : α → α → α)
    (l l' : List (κ × α)) (m : AMap κ α) :
    aupsertMany mrg (l ++ l') m = aupsertMany mrg l' (aupsertMany mrg l m) :=
  List.foldl_append _ _ _ _

theorem alookup_aupsertMany_isSome [DecidableEq κ] {α : Type}
    (mrg : α → α → α) (l : List (κ × α)) {m : AMap κ α} {k' : κ}
    (h : (alookup m k').isSome) :
    (alookup (aupsertMany mrg l m) k').isSome := by
  induction l generalizing m with
  | nil => exact h
  | cons p l ih =>
    rw [aupsertMany_cons]
    exact ih (alookup_upsert_isSome mrg p.1 p.2 m h)

theorem alookup_aupsertMany_mem_isSome [DecidableEq κ] {α : Type}
    (mrg : α → α → α) {l : List (κ × α)} {m : AMap κ α} {p : κ × α}
    (h : p ∈ l) :
    (alookup (aupsertMany mrg l m) p.1).isSome := by
  induction l generalizing m with
  | nil => cases h
  | cons q l ih =>
    rw [aupsertMany_cons]
    rcases List.mem_cons.mp h with rfl | h
    · exact alookup_aupsertMany_isSome mrg l
        (alookup_upsert_self_isSome mrg p.1 p.2 m)
    · exact ih h

theorem contribFold_cons [DecidableEq κ] {α : Type} (mrg : α → α → α)
    (k : κ) (v : α) (p : κ × α) (l : List (κ × α)) :
    contribFold mrg k v (p :: l) =
      contribFold mrg k (if p.1 = k then mrg v p.2 else v) l := by
  unfold contribFold
  by_cases hp : p.1 = k <;> simp [hp]

theorem contribFold_append [DecidableEq κ] {α : Type} (mrg : α → α → α)
    (k : κ) (v : α) (l l' : List (κ × α)) :
    contribFold mrg k v (l ++ l') =
      contribFold mrg k (contribFold mrg k v l) l' :=
  List.foldl_append _ _ _ _

theorem contribFold_of_no_key [DecidableEq κ] {α : Type} (mrg : α → α → α)
    {k : κ} (v : α) {l : List (κ × α)} (h : ∀ p ∈ l, p.1 ≠ k) :
    contribFold mrg k v l = v := by
  induction l generalizing v with
  | nil => rfl
  | cons p l ih =>
    rw [contribFold_cons, if_neg (h p (List.mem_cons_self p l))]
    exact ih v (fun q hq => h q (List.mem_cons_of_mem p hq))

theorem aupsertMany_of_keys_present [DecidableEq κ] {α : Type}
    (mrg : α → α → α) (l : List (κ × α)) (m : AMap κ α)
    (h : ∀ p ∈ l, (alookup m p.1).isSome) :
    aupsertMany mrg l m =
      m.map (fun q => (q.1, contribFold mrg q.1 q.2 l)) := by
  induction l generalizing m with
  | nil =>
    simp only [aupsertMany, List.foldl_nil, contribFold, List.foldl_nil]
    exact (map_eq_self_of (fun p _ => rfl)).symm
  | cons p l ih =>
    rw [aupsertMany_cons]
    have hp : (alookup m p.1).isSome := h p (List.mem_cons_self p l)
    obtain ⟨v, hv⟩ := Option.isSome_iff_exists.mp hp
    have hup : aupsert mrg p.1 p.2 m =
        m.map (fun q => if q.1 = p.1 then (p.1, mrg q.2 p.2) else q) := by
      unfold aupsert
      rw [hv]
    rw [hup, ih _ (fun q hq => by
      rw [alookup_map_upFun]
      rcases Option.isSome_iff_exists.mp
        (h q (List.mem_cons_of_mem p hq)) with ⟨w, hw⟩
      rw [hw]
      rfl)]
    rw [List.map_map]
    refine List.map_congr_left (fun q _ => ?_)
    simp only [Function.comp]
    by_cases hq : q.1 = p.1
    · simp [hq, contribFold_cons]
    · rw [contribFold_cons, if_neg (fun hh : p.1 = q.1 => hq hh.symm)]
      simp [if_neg hq]

/-! ## Cell merge algebra -/

theorem Cell.merge_assoc (a b c : Cell) :
    Cell.merge (Cell.merge a b) c = Cell.merge a (Cell.merge b c) := by
  simp [Cell.merge, Finset.union_assoc]

theorem Cell.merge_comm (a b : Cell) : Cell.merge a b = Cell.merge b a := by
  simp [Cell.merge, Finset.union_comm]

theorem Cell.merge_self (a : Cell) : Cell.merge a a = a := by
  cases a
  simp [Cell.merge]

theorem Cell.merge_empty_right (a : Cell) : Cell.merge a emptyCell = a := by
  cases a
  simp [Cell.merge, emptyCell]

theorem Cell.merge_absorb {q S : Cell} (c : Cell) (h : Cell.merge q S = q) :
    Cell.merge (Cell.merge q (Cell.merge c S)) c = Cell.merge q c := by
  rw [Cell.merge_assoc, Cell.merge_assoc, Cell.merge_comm S c,
    ← Cell.merge_assoc c c S, Cell.merge_self, ← Cell.merge_assoc,
    Cell.merge_assoc q c S, Cell.merge_comm c S, ← Cell.merge_assoc, h]

theorem contribFold_merge_distrib {κ : Type} [DecidableEq κ] (k : κ)
    (v w : Cell) (l : List (κ × Cell)) :
    contribFold Cell.merge k (Cell.merge v w) l =
      Cell.merge v (contribFold Cell.merge k w l) := by
  induction l generalizing w with
  | nil => rfl
  | cons p l ih =>
    rw [contribFold_cons, contribFold_cons]
    by_cases hp : p.1 = k
    · rw [if_pos hp, if_pos hp, Cell.merge_assoc, ih]
    · rw [if_neg hp, if_neg hp, ih]

/-! ## Per-binding replay invariants -/

theorem aupsertMany_binding_replace {κ α : Type} [DecidableEq κ]
    (l : List (κ × α)) (m : AMap κ α) :
    ∀ p ∈ aupsertMany replaceVal l m,
      contribFold replaceVal p.1 p.2 l = p.2 := by
  induction l using List.reverseRecOn with
  | nil => intro p _; rfl
  | append_singleton l e ih =>
    intro p hp
    rw [aupsertMany_append] at hp
    set N := aupsertMany replaceVal l m with hN
    rw [show aupsertMany replaceVal [e] N = aupsert replaceVal e.1 e.2 N
      from rfl] at hp
    unfold aupsert at hp
    cases hlk : alookup N e.1 with
    | some v =>
      rw [hlk] at hp
      rcases List.mem_map.mp hp with ⟨q, hq, rfl⟩
      by_cases hqe : q.1 = e.1
      · rw [if_pos hqe]
        rw [contribFold_append]
        show contribFold replaceVal e.1
          (contribFold replaceVal e.1 (replaceVal q.2 e.2) l) [e] = _
        simp [contribFold, replaceVal]
      · rw [if_neg hqe]
        rw [contribFold_append]
        rw [ih q hq]
        show (if e.1 = q.1 then replaceVal q.2 e.2 else q.2) = q.2
        rw [if_neg (fun hh => hqe hh.symm)]
    | none =>
      rw [hlk] at hp
      rcases List.mem_append.mp hp with hq | hq
      · have hne : p.1 ≠ e.1 := alookup_eq_none_iff.mp hlk p hq
        rw [contribFold_append, ih p hq]
        show (if e.1 = p.1 then replaceVal p.2 e.2 else p.2) = p.2
        rw [if_neg (fun hh => hne hh.symm)]
      · rcases List.mem_singleton.mp hq with rfl
        rw [contribFold_append]
        show (if e.1 = e.1 then replaceVal _ e.2 else _) = e.2
        simp [replaceVal]

theorem aupsertMany_binding_merge {κ : Type} [DecidableEq κ]
    (l : List (κ × Cell)) (m : AMap κ Cell) :
    ∀ p ∈ aupsertMany Cell.merge l m,
      contribFold Cell.merge p.1 p.2 l = p.2 := by
  induction l using List.reverseRecOn with
  | nil => intro p _; rfl
  | append_singleton l e ih =>
    intro p hp
    rw [aupsertMany_append] at hp
    set N := aupsertMany Cell.merge l m with hN
    rw [show aupsertMany Cell.merge [e] N = aupsert Cell.merge e.1 e.2 N
      from rfl] at hp
    unfold aupsert at hp
    cases hlk : alookup N e.1 with
    | some v =>
      rw [hlk] at hp
      rcases List.mem_map.mp hp with ⟨q, hq, rfl⟩
      by_cases hqe : q.1 = e.1
      · rw [if_pos hqe]
        have hqcontrib : contribFold Cell.merge e.1 q.2 l = q.2 := by
          rw [← hqe]; exact ih q hq
        have hq2 : Cell.merge q.2 (contribFold Cell.merge e.1 emptyCell l)
            = q.2 := by
          calc Cell.merge q.2 (contribFold Cell.merge e.1 emptyCell l)
              = contribFold Cell.merge e.1 (Cell.merge q.2 emptyCell) l := by
                rw [contribFold_merge_distrib]
            _ = contribFold Cell.merge e.1 q.2 l := by
                rw [Cell.merge_empty_right]
            _ = q.2 := hqcontrib
        rw [contribFold_append]
        show contribFold Cell.merge e.1
          (contribFold Cell.merge e.1 (Cell.merge q.2 e.2) l) [e] = _
        have hstep : contribFold Cell.merge e.1 (Cell.merge q.2 e.2) l =
            Cell.merge q.2 (Cell.merge e.2
              (contribFold Cell.merge e.1 emptyCell l)) := by
          rw [contribFold_merge_distrib]
          congr 1
          rw [show e.2 = Cell.merge e.2 emptyCell from
            (Cell.merge_empty_right e.2).symm, contribFold_merge_distrib,
            Cell.merge_empty_right]
        rw [hstep]
        show (if e.1 = e.1 then Cell.merge _ e.2 else _) = _
        rw [if_pos rfl]
        exact Cell.merge_absorb e.2 hq2
      · rw [if_neg hqe]
        rw [contribFold_append, ih q hq]
        show (if e.1 = q.1 then Cell.merge q.2 e.2 else q.2) = q.2
        rw [if_neg (fun hh => hqe hh.symm)]
    | none =>
      rw [hlk] at hp
      rcases List.mem_append.mp hp with hq | hq
      · have hne : p.1 ≠ e.1 := alookup_eq_none_iff.mp hlk p hq
        rw [contribFold_append, ih p hq]
        show (if e.1 = p.1 then Cell.merge p.2 e.2 else p.2) = p.2
        rw [if_neg (fun hh => hne hh.symm)]
      · rcases List.mem_singleton.mp hq with rfl
        have hfresh : ∀ q ∈ l, q.1 ≠ e.1 := by
          intro q hql hqk
          have := alookup_aupsertMany_mem_isSome Cell.merge hql (m := m)
          rw [hqk, ← hN, hlk] at this
          exact Bool.noConfusion this
        rw [contribFold_append, contribFold_of_no_key Cell.merge e.2 hfresh]
        show (if e.1 = e.1 then Cell.merge e.2 e.2 else e.2) = e.2
        rw [if_pos rfl, Cell.merge_self]

/-! ## Idempotent replay of a write sequence -/

theorem aupsertMany_idem_of_binding {κ α : Type} [DecidableEq κ]
    (mrg : α → α → α) (l : List (κ × α)) (m : AMap κ α)
    (hbind : ∀ p ∈ aupsertMany mrg l m, contribFold mrg p.1 p.2 l = p.2) :
    aupsertMany mrg l (aupsertMany mrg l m) = aupsertMany mrg l m := by
  rw [aupsertMany_of_keys_present mrg l _
    (fun p hp => alookup_aupsertMany_mem_isSome mrg hp)]
  exact map_eq_self_of (fun p hp => by rw [hbind p hp])

theorem aupsertMany_idem_replace {κ α : Type} [DecidableEq κ]
    (l : List (κ × α)) (m : AMap κ α) :
    aupsertMany replaceVal l (aupsertMany replaceVal l m) =
      aupsertMany replaceVal l m :=
  aupsertMany_idem_of_binding replaceVal l m (aupsertMany_binding_replace l m)

theorem aupsertMany_idem_merge {κ : Type} [DecidableEq κ]
    (l : List (κ × Cell)) (m : AMap κ Cell) :
    aupsertMany Cell.merge l (aupsertMany Cell.merge l m) =
      aupsertMany Cell.merge l m :=
  aupsertMany_idem_of_binding Cell.merge l m (aupsertMany_binding_merge l m)

/-! ## Predicate preservation and pruning lemmas -/

theorem aupsert_preserves {κ α : Type} [DecidableEq κ] {mrg : α → α → α}
    (P : α → Prop) (hmono : ∀ a b, P a → P (mrg a b)) {k : κ} {c : α}
    {m : AMap κ α} (hc : P c) (hm : ∀ p ∈ m, P p.2) :
    ∀ p ∈ aupsert mrg k c m, P p.2 := by
  intro p hp
  unfold aupsert at hp
  cases hl : alookup m k with
  | some v =>
    rw [hl] at hp
    rcases List.mem_map.mp hp with ⟨q, hq, rfl⟩
    by_cases hqe : q.1 = k
    · simp only [if_pos hqe]
      exact hmono _ _ (hm q hq)
    · simp only [if_neg hqe]
      exact hm q hq
  | none =>
    rw [hl] at hp
    rcases List.mem_append.mp hp with h | h
    · exact hm p h
    · rcases List.mem_singleton.mp h with rfl
      exact hc

theorem aupsertMany_preserves {κ α : Type} [DecidableEq κ] {mrg : α → α → α}
    (P : α → Prop) (hmono : ∀ a b, P a → P (mrg a b)) :
    ∀ {l : List (κ × α)} {m : AMap κ α}, (∀ e ∈ l, P e.2) →
      (∀ p ∈ m, P p.2) → ∀ p ∈ aupsertMany mrg l m, P p.2 := by
  intro l
  induction l with
  | nil => intro m _ hm p hp; exact hm p hp
  | cons e l ih =>
    intro m hl hm p hp
    rw [aupsertMany_cons] at hp
    exact ih (fun q hq => hl q (List.mem_cons_of_mem e hq))
      (aupsert_preserves P hmono (hl e (List.mem_cons_self e l)) hm) p hp

theorem stripCell_nil (c : Cell) : stripCell [] c = c := by
  cases c
  simp [stripCell]

theorem pruneMap_nonempty {κ : Type} (removed : List String)
    (m : AMap κ Cell) :
    ∀ p ∈ pruneMap removed m, p.2.sourceChunkIDs ≠ ∅ := by
  intro p hp
  unfold pruneMap at hp
  rcases List.mem_filterMap.mp hp with ⟨q, _, hfq⟩
  by_cases hcond : (stripCell removed q.2).sourceChunkIDs = ∅
  · rw [if_pos hcond] at hfq
    exact Option.noConfusion hfq
  · rw [if_neg hcond] at hfq
    cases hfq
    exact hcond

theorem pruneMap_nil {κ : Type} (m : AMap κ Cell)
    (h : ∀ p ∈ m, p.2.sourceChunkIDs ≠ ∅) : pruneMap [] m = m := by
  unfold pruneMap
  apply filterMap_eq_self_of
  intro p hp
  rw [stripCell_nil, if_neg (h p hp), Prod.mk.eta]

theorem eraseChunks_nil (m : AMap String Chunk) : eraseChunks [] m = m :=
  List.filter_eq_self.mpr (fun _ _ => rfl)

theorem filter_not_contains_self (l : List String) :
    l.filter (fun x => !(l.contains x)) = [] :=
  List.filter_eq_nil_iff.mpr
    (fun a ha => by simp [List.contains, List.elem_iff, ha])

theorem alookup_upsert_replace_self {κ α : Type} [DecidableEq κ] (k : κ)
    (v : α) (m : AMap κ α) :
    alookup (aupsert replaceVal k v m) k = some v := by
  cases h : alookup m k with
  | some w => rw [alookup_upsert_self_of_some h]; rfl
  | none => rw [alookup_upsert_self_of_none h]

/-! ## Idempotence of the write phase -/

theorem removedIDs_of_current (docID : String) (chunks : List Chunk)
    (st₁ : StoreState)
    (hman : alookup st₁.manifest docID = some (chunks.map (fun c => c.id))) :
    removedIDs docID (chunks.map (fun c => c.id)) st₁ = [] := by
  unfold removedIDs
  rw [hman]
  exact filter_not_contains_self _

theorem writePhase_eq_self (docID : String) (chunks : List Chunk)
    (es : List (String × Cell)) (rs : List ((String × String) × Cell))
    (st₁ : StoreState)
    (hman : alookup st₁.manifest docID = some (chunks.map (fun c => c.id)))
    (hchunks : aupsertMany replaceVal (chunks.map (fun c => (c.id, c)))
      st₁.chunks = st₁.chunks)
    (hents : aupsertMany Cell.merge es st₁.entities = st₁.entities)
    (hrels : aupsertMany Cell.merge rs st₁.rels = st₁.rels)
    (hman2 : aupsert replaceVal docID (chunks.map (fun c => c.id))
      st₁.manifest = st₁.manifest)
    (hne : ∀ p ∈ st₁.entities, p.2.sourceChunkIDs ≠ ∅)
    (hnr : ∀ p ∈ st₁.rels, p.2.sourceChunkIDs ≠ ∅) :
    writePhase docID chunks es rs st₁ = st₁ := by
  have h2 := removedIDs_of_current docID chunks st₁ hman
  simp only [writePhase, h2]
  rw [eraseChunks_nil, pruneMap_nil _ hne, pruneMap_nil _ hnr, hchunks,
    hents, hrels, hman2]

theorem cellNonempty_merge_mono (a b : Cell) (h : a.sourceChunkIDs ≠ ∅) :
    (Cell.merge a b).sourceChunkIDs ≠ ∅ := by
  simp only [Cell.merge]
  intro hu
  exact h (Finset.union_eq_empty.mp hu).1

theorem writePhase_idem (docID : String) (chunks : List Chunk)
    (es : List (String × Cell)) (rs : List ((String × String) × Cell))
    (st : StoreState)
    (hes : ∀ p ∈ es, p.2.sourceChunkIDs ≠ ∅)
    (hrs : ∀ p ∈ rs, p.2.sourceChunkIDs ≠ ∅) :
    writePhase docID chunks es rs (writePhase docID chunks es rs st) =
      writePhase docID chunks es rs st := by
  apply writePhase_eq_self
  · simp only [writePhase]
    exact alookup_upsert_replace_self _ _ _
  · simp only [writePhase]
    exact aupsertMany_idem_replace _ _
  · simp only [writePhase]
    exact aupsertMany_idem_merge _ _
  · simp only [writePhase]
    exact aupsertMany_idem_merge _ _
  · simp only [writePhase]
    exact aupsertMany_idem_of_binding _ _ _
      (aupsertMany_binding_replace [(docID, chunks.map (fun c => c.id))] _)
  · simp only [writePhase]
    exact aupsertMany_preserves _ cellNonempty_merge_mono hes
      (pruneMap_nonempty _ _)
  · simp only [writePhase]
    exact aupsertMany_preserves _ cellNonempty_merge_mono hrs
      (pruneMap_nonempty _ _)

/-! ## Retry behaviour -/

theorem attemptLoop_all_fail (llm : LLM) (c : Chunk) :
    ∀ (n a₀ : Nat), (∀ a, a < n → llm c (a₀ + a) = .error .extractionFailed) →
      attemptLoop llm c a₀ n = llm c (a₀ + n) := by
  intro n
  induction n with
  | zero => intro a₀ _; rfl
  | succ n ih =>
    intro a₀ h
    have h0 : llm c a₀ = .error .extractionFailed := by
      simpa using h 0 (Nat.succ_pos n)
    show (match llm c a₀ with
      | .ok r => .ok r
      | .error .extractionFailed => attemptLoop llm c (a₀ + 1) n
      | .error e => .error e) = llm c (a₀ + (n + 1))
    rw [h0]
    rw [show a₀ + (n + 1) = (a₀ + 1) + n by omega]
    exact ih (a₀ + 1) (fun a ha => by
      rw [show (a₀ + 1) + a = a₀ + (a + 1) by omega]
      exact h (a + 1) (Nat.succ_lt_succ ha))

theorem extractWithRetry_eq_last (llm : LLM) (maxRetries : Nat) (c : Chunk)
    (h : ∀ a, a < maxRetries → llm c a = .error .extractionFailed) :
    extractWithRetry llm maxRetries c = llm c maxRetries := by
  unfold extractWithRetry
  have := attemptLoop_all_fail llm c maxRetries 0 (fun a ha => by
    simpa using h a ha)
  simpa using this

theorem extractAll_ok_of_all (llm : LLM) (maxRetries : Nat) :
    ∀ (cs : List Chunk),
      (∀ c ∈ cs, ∃ r, extractWithRetry llm maxRetries c = .ok r) →
      ∃ rs, extractAll llm maxRetries cs = .ok rs := by
  intro cs
  induction cs with
  | nil => exact fun _ => ⟨[], rfl⟩
  | cons c cs ih =>
    intro h
    obtain ⟨r, hr⟩ := h c (List.mem_cons_self c cs)
    obtain ⟨rs, hrs⟩ := ih (fun q hq => h q (List.mem_cons_of_mem c hq))
    refine ⟨(c, r) :: rs, ?_⟩
    unfold extractAll
    rw [hr, hrs]

theorem extractAll_err_head (llm : LLM) (maxRetries : Nat) (c : Chunk)
    (cs : List Chunk)
    (h : extractWithRetry llm maxRetries c = .error .extractionFailed) :
    extractAll llm maxRetries (c :: cs) = .error .extractionFailed := by
  unfold extractAll
  rw [h]

theorem chunkFrom_ne_nil (docID : String) (maxT step fuel start ord : Nat)
    (toks : List String) :
    chunkFrom docID maxT step (fuel + 1) start ord toks ≠ [] := by
  unfold chunkFrom
  by_cases h : start + maxT < toks.length <;> simp [h]

theorem split_ok_shape (doc : Document) (maxT ov : Nat) (hov : ov < maxT) :
    split doc maxT ov = .ok (chunkFrom doc.id maxT (maxT - ov)
      ((tokenize doc.content).length + 1) 0 0 (tokenize doc.content)) := by
  unfold split
  rw [if_neg (Nat.not_le.mpr hov)]

/-! ## Nonempty source-chunk sets in extractor output -/

theorem entitiesFrom_nonempty (etypes : List String)
    (results : List (Chunk × ExtractOut)) :
    ∀ p ∈ entitiesFrom etypes results, p.2.sourceChunkIDs ≠ ∅ := by
  intro p hp
  unfold entitiesFrom at hp
  rcases List.mem_flatMap.mp hp with ⟨q, _, hmem⟩
  unfold taggedEntitiesOf at hmem
  rcases List.mem_map.mp hmem with ⟨e, _, rfl⟩
  exact Finset.singleton_ne_empty _

theorem relsFrom_nonempty (results : List (Chunk × ExtractOut)) :
    ∀ p ∈ relsFrom results, p.2.sourceChunkIDs ≠ ∅ := by
  intro p hp
  unfold relsFrom at hp
  rcases List.mem_flatMap.mp hp with ⟨q, _, hmem⟩
  unfold taggedRelsOf at hmem
  rcases List.mem_map.mp hmem with ⟨e, _, rfl⟩
  exact Finset.singleton_ne_empty _

/-! ## Claim C1: retry bound -/

/-- C1: For every chunk of a document being ingested, if the LLM
collaborator fails with `ExtractionFailed` on each of the first `MaxRetries`
attempts and then succeeds, `Ingest` succeeds; if it fails on all
`MaxRetries + 1` attempts, `Ingest` returns `ExtractionFailed`.  The demo's
materialized configuration sets `MaxRetries = 5`. -/
theorem ingest_retry_bound (cfg : IngestConfig) (llmA llmB : LLM)
    (doc : Document) (st : StoreState)
    (hov : cfg.overlapTokens < cfg.chunkMaxTokenSize)
    (hafail : ∀ c a, a < cfg.maxRetries → llmA c a = .error .extractionFailed)
    (haok : ∀ c, ∃ r, llmA c cfg.maxRetries = .ok r)
    (hbfail : ∀ c a, a ≤ cfg.maxRetries → llmB c a = .error .extractionFailed) :
    (∃ st', ingest cfg llmA doc st = .ok st') ∧
      ingest cfg llmB doc st = .error .extractionFailed ∧
      cfgDemo.maxRetries = 5 := by
  have hsplit := split_ok_shape doc cfg.chunkMaxTokenSize cfg.overlapTokens hov
  set chunks := chunkFrom doc.id cfg.chunkMaxTokenSize
    (cfg.chunkMaxTokenSize - cfg.overlapTokens)
    ((tokenize doc.content).length + 1) 0 0 (tokenize doc.content) with hchunks
  refine ⟨?_, ?_, rfl⟩
  · obtain ⟨rs, hrs⟩ := extractAll_ok_of_all llmA cfg.maxRetries chunks
      (fun c _ => by
        rw [extractWithRetry_eq_last llmA cfg.maxRetries c (hafail c)]
        exact haok c)
    refine ⟨writePhase doc.id chunks (entitiesFrom cfg.entityTypes rs)
      (relsFrom rs) st, ?_⟩
    unfold ingest
    rw [hsplit]
    simp only [hrs]
  · obtain ⟨c, cs, hcons⟩ := List.exists_cons_of_ne_nil
      (chunkFrom_ne_nil doc.id cfg.chunkMaxTokenSize
        (cfg.chunkMaxTokenSize - cfg.overlapTokens)
        ((tokenize doc.content).length) 0 0 (tokenize doc.content))
    have hext : extractAll llmB cfg.maxRetries chunks =
        .error .extractionFailed := by
      rw [hchunks, hcons]
      apply extractAll_err_head
      rw [extractWithRetry_eq_last llmB cfg.maxRetries c
        (fun a ha => hbfail c a (Nat.le_of_lt ha))]
      exact hbfail c cfg.maxRetries (Nat.le_refl _)
    unfold ingest
    rw [hsplit]
    simp only [hext]

/-- Closed check for `ingest_retry_bound`: with `MaxRetries = 5`, a
collaborator failing on attempts `0`–`4` and succeeding on attempt `5` lets
ingestion succeed, while one failing on all six attempts makes it return
`ExtractionFailed`. -/
theorem ingest_retry_bound_witness :
    (∃ st', ingest cfgR llmEventualOk docW emptyStore = .ok st') ∧
      ingest cfgR llmNeverOk docW emptyStore = .error .extractionFailed ∧
      cfgDemo.maxRetries = 5 :=
  ingest_retry_bound cfgR llmEventualOk llmNeverOk docW emptyStore
    (by decide)
    (fun c a ha => by
      simp only [llmEventualOk]
      rw [if_pos (show a < 5 from ha)])
    (fun c => ⟨([], []), rfl⟩)
    (fun c a _ => rfl)

/-! ## Claim C2: idempotent re-ingestion -/

/-- C2: Re-ingesting the same document with unchanged content and
configuration leaves the stores exactly as after the first ingestion:
`Ingest(D)` followed by `Ingest(D)` produces the same stored entity,
relationship and chunk sets — overwrite, never duplicate. -/
theorem ingest_idempotent (cfg : IngestConfig) (llm : LLM) (doc : Document)
    (st st' : StoreState) (h : ingest cfg llm doc st = .ok st') :
    ingest cfg llm doc st' = .ok st' := by
  unfold ingest at h ⊢
  cases hsplit : split doc cfg.chunkMaxTokenSize cfg.overlapTokens with
  | error e => rw [hsplit] at h; exact Except.noConfusion h
  | ok chunks =>
    simp only [hsplit] at h
    cases hext : extractAll llm cfg.maxRetries chunks with
    | error e =>
      simp only [hext] at h
      exact Except.noConfusion h
    | ok results =>
      simp only [hext, Except.ok.injEq] at h
      simp only [hext, Except.ok.injEq]
      rw [← h]
      exact writePhase_idem doc.id chunks _ _ st
        (entitiesFrom_nonempty cfg.entityTypes results)
        (relsFrom_nonempty results)

/-- Closed check for `ingest_idempotent` on a two-token document: the first
ingestion produces `stW` and re-ingesting from `stW` reproduces `stW`. -/
theorem ingest_idempotent_witness :
    ingest cfgW llmW docW emptyStore = .ok stW ∧
      ingest cfgW llmW docW stW = .ok stW :=
  ⟨by decide, ingest_idempotent cfgW llmW docW emptyStore stW (by decide)⟩

/-! ## Claim C3: order-independence of the merge -/

theorem Cell.merge_empty_left (a : Cell) : Cell.merge emptyCell a = a := by
  cases a
  simp [Cell.merge, emptyCell]

theorem contribsFor_cons [DecidableEq κ] {α : Type} (k : κ) (p : κ × α)
    (l : List (κ × α)) :
    contribsFor k (p :: l) =
      if p.1 = k then p.2 :: contribsFor k l else contribsFor k l := by
  unfold contribsFor
  by_cases hp : p.1 = k <;> simp [hp]

theorem alookup_aupsertMany_merge {κ : Type} [DecidableEq κ] :
    ∀ (l : List (κ × Cell)) (m : AMap κ Cell) (k : κ),
      alookup (aupsertMany Cell.merge l m) k =
        match alookup m k with
        | some v => some (List.foldl Cell.merge v (contribsFor k l))
        | none =>
          match contribsFor k l with
          | [] => none
          | c :: cs => some (List.foldl Cell.merge c cs) := by
  intro l
  induction l with
  | nil =>
    intro m k
    rw [show aupsertMany Cell.merge [] m = m from rfl]
    cases alookup m k <;> rfl
  | cons p l ih =>
    intro m k
    rw [aupsertMany_cons, ih, contribsFor_cons]
    by_cases hp : p.1 = k
    · rw [if_pos hp]
      subst hp
      cases hm : alookup m p.1 with
      | some v =>
        rw [alookup_upsert_self_of_some hm]
        simp
      | none =>
        rw [alookup_upsert_self_of_none hm]
    · rw [if_neg hp]
      rw [alookup_upsert_ne Cell.merge p.2 m (fun hh => hp hh.symm)]

theorem foldl_merge_perm {c₁ c₂ : List Cell} (hp : c₁.Perm c₂) (v : Cell) :
    List.foldl Cell.merge v c₁ = List.foldl Cell.merge v c₂ :=
  hp.foldl_eq' (fun x _ y _ z => by
    rw [Cell.merge_assoc, Cell.merge_assoc, Cell.merge_comm x y]) v

theorem alookup_aupsertMany_merge_perm {κ : Type} [DecidableEq κ]
    {l₁ l₂ : List (κ × Cell)} (hp : l₁.Perm l₂) (m : AMap κ Cell) (k : κ) :
    alookup (aupsertMany Cell.merge l₁ m) k =
      alookup (aupsertMany Cell.merge l₂ m) k := by
  rw [alookup_aupsertMany_merge, alookup_aupsertMany_merge]
  have hcp : (contribsFor k l₁).Perm (contribsFor k l₂) := hp.filterMap _
  cases hm : alookup m k with
  | some v =>
    simp only []
    rw [foldl_merge_perm hcp]
  | none =>
    simp only []
    cases hc₁ : contribsFor k l₁ with
    | nil =>
      rw [hc₁] at hcp
      rw [hcp.nil_eq.symm]
    | cons c cs =>
      rw [hc₁] at hcp
      cases hc₂ : contribsFor k l₂ with
      | nil =>
        rw [hc₂] at hcp
        exact absurd hcp.symm.nil_eq (by simp)
      | cons c' cs' =>
        rw [hc₂] at hcp
        simp only []
        have h₁ : List.foldl Cell.merge c cs =
            List.foldl Cell.merge emptyCell (c :: cs) := by
          simp [Cell.merge_empty_left]
        have h₂ : List.foldl Cell.merge c' cs' =
            List.foldl Cell.merge emptyCell (c' :: cs') := by
          simp [Cell.merge_empty_left]
        rw [h₁, h₂, foldl_merge_perm hcp]

/-- C3: The final merged entity and relationship records produced by
ingestion do not depend on the order in which chunk extraction results are
processed: for any permutation of the per-chunk results, every key of the
entity store and of the relationship store carries the same merged record
(the merge is commutative and idempotent, spec sections 3 and 5). -/
theorem merged_result_order_independent (etypes : List String)
    (rs₁ rs₂ : List (Chunk × ExtractOut)) (hperm : rs₁.Perm rs₂)
    (m : AMap String Cell) (mr : AMap (String × String) Cell)
    (k : String) (kr : String × String) :
    alookup (aupsertMany Cell.merge (entitiesFrom etypes rs₁) m) k =
      alookup (aupsertMany Cell.merge (entitiesFrom etypes rs₂) m) k ∧
    alookup (aupsertMany Cell.merge (relsFrom rs₁) mr) kr =
      alookup (aupsertMany Cell.merge (relsFrom rs₂) mr) kr := by
  constructor
  · exact alookup_aupsertMany_merge_perm
      (List.Perm.flatMap_right _ hperm) m k
  · exact alookup_aupsertMany_merge_perm
      (List.Perm.flatMap_right _ hperm) mr kr

/-- Closed check for `merged_result_order_independent`: two chunk results
processed in either order merge to the same records at the keys they touch. -/
theorem merged_result_order_independent_witness :
    (alookup (aupsertMany Cell.merge (entitiesFrom ["object"] resultsAB) []) "a" =
      alookup (aupsertMany Cell.merge (entitiesFrom ["object"] resultsBA) []) "a") ∧
    (alookup (aupsertMany Cell.merge (relsFrom resultsAB) []) ("a", "b") =
      alookup (aupsertMany Cell.merge (relsFrom resultsBA) []) ("a", "b")) :=
  merged_result_order_independent ["object"] resultsAB resultsBA
    (by decide) [] [] "a" ("a", "b")

/-! ## Claim C4: capability composition of the store -/

/-- C4: The composed store type of the demo (embedding the Neo4J,
Chromem and Bolt backends) satisfies the KeyValueStore, VectorStore and
GraphStore port contracts simultaneously: the single store value passed to
`Insert` and `Query` provides every operation of all three ports. -/
theorem composed_store_satisfies_all_ports :
    satisfiesPort demoStore keyValueStorePort ∧
      satisfiesPort demoStore vectorStorePort ∧
      satisfiesPort demoStore graphStorePort := by
  decide

/-! ## Claim C5: configuration surface of the demo -/

/-- C5 counterexample: The configuration the demo's `Ingest` call
consumes does not supply `OverlapTokens` explicitly: the `handler.Default`
struct literal leaves the field unmentioned, so it takes the implicit Go
zero value. -/
theorem demo_config_omits_overlap :
    demoHandlerLiteral.overlapTokens = none ∧
      (materialize demoHandlerLiteral).overlapTokens = 0 :=
  ⟨rfl, rfl⟩

/-- C5 amended: The demo's `handler.Default` literal supplies five of
the six core configuration fields explicitly — `ChunkMaxTokenSize = 1500`,
the seven entity types, `MaxRetries = 5`, `BackoffDuration = 3s`,
`ConcurrencyCount = 5` — but omits `OverlapTokens`, which therefore takes
the implicit zero value in the configuration consumed by the `Ingest`
call. -/
theorem demo_config_fields :
    demoHandlerLiteral.chunkMaxTokenSize = some 1500 ∧
      demoHandlerLiteral.entityTypes = some ["character", "organization",
        "location", "time period", "object", "theme", "event"] ∧
      demoHandlerLiteral.maxRetries = some 5 ∧
      demoHandlerLiteral.backoffDuration = some 3 ∧
      demoHandlerLiteral.concurrencyCount = some 5 ∧
      demoHandlerLiteral.overlapTokens = none ∧
      cfgDemo.overlapTokens = 0 :=
  ⟨rfl, rfl, rfl, rfl, rfl, rfl, rfl⟩

/-! ## Claim C6: invalid chunking configuration is fatal -/

/-- C6: For every document and every parameter pair with
`overlapTokens ≥ maxTokens`, the Chunker's `Split` fails with
`InvalidConfig`, and `Ingest` propagates exactly that error for every LLM
collaborator — the error is fatal and never retried. -/
theorem split_invalid_config (cfg : IngestConfig) (llm : LLM)
    (doc : Document) (st : StoreState)
    (hov : cfg.chunkMaxTokenSize ≤ cfg.overlapTokens) :
    split doc cfg.chunkMaxTokenSize cfg.overlapTokens =
        .error .invalidConfig ∧
      ingest cfg llm doc st = .error .invalidConfig := by
  have hs : split doc cfg.chunkMaxTokenSize cfg.overlapTokens =
      .error .invalidConfig := by
    unfold split
    rw [if_pos hov]
  refine ⟨hs, ?_⟩
  unfold ingest
  rw [hs]

/-- Closed check for `split_invalid_config` at `maxTokens = 2`,
`overlapTokens = 3`. -/
theorem split_invalid_config_witness :
    split docW cfgBad.chunkMaxTokenSize cfgBad.overlapTokens =
        .error .invalidConfig ∧
      ingest cfgBad llmW docW emptyStore = .error .invalidConfig :=
  split_invalid_config cfgBad llmW docW emptyStore (by decide)

/-! ## Claim C7: the demo ingestion scenario -/

/-- C7: Ingesting `Document{ID: "doc-1", Content: "Neo4j stores
entities; ChromeM stores vectors; Bolt stores chunks."}` with the demo
configuration (`ChunkMaxTokenSize = 1500`, `EntityTypes` including
`"object"`) produces exactly one chunk, and entities keyed by the
normalized names of `"Neo4j"`, `"ChromeM"` and `"Bolt"`, each of type
`"object"` with `SourceChunkIDs` containing that single chunk's ID. -/
theorem demo_ingestion_result :
    split docDemo cfgDemo.chunkMaxTokenSize cfgDemo.overlapTokens =
        .ok [chunkDemo] ∧
      cfgDemo.entityTypes.contains "object" = true ∧
      ingest cfgDemo llmDemo docDemo emptyStore = .ok stDemo ∧
      alookup stDemo.entities (normalizeKey "Neo4j") =
        some ⟨{"Neo4j"}, {"object"}, {"stores entities"}, {chunkDemo.id}⟩ ∧
      alookup stDemo.entities (normalizeKey "ChromeM") =
        some ⟨{"ChromeM"}, {"object"}, {"stores vectors"}, {chunkDemo.id}⟩ ∧
      alookup stDemo.entities (normalizeKey "Bolt") =
        some ⟨{"Bolt"}, {"object"}, {"stores chunks"}, {chunkDemo.id}⟩ := by
  refine ⟨by decide, by decide, by decide, by decide, by decide, by decide⟩

/-! ## Claim C8: `secrets.LoadConfig` -/

/-- C8: `LoadConfig` returns an error exactly when `ACCESS_TOKEN` is
empty, `ORGANIZATION_ID` is empty, or `ORGANIZATION_ID` does not parse as a
UUID; otherwise it returns the two environment values unchanged with no
error. -/
theorem loadConfig_characterization (p : String → Bool)
    (env : String → String) :
    (loadConfig p env = .ok (env "ACCESS_TOKEN", env "ORGANIZATION_ID") ↔
      (env "ACCESS_TOKEN" ≠ "" ∧ env "ORGANIZATION_ID" ≠ "" ∧
        p (env "ORGANIZATION_ID") = true)) ∧
    ((∃ e, loadConfig p env = .error e) ↔
      (env "ACCESS_TOKEN" = "" ∨ env "ORGANIZATION_ID" = "" ∨
        p (env "ORGANIZATION_ID") = false)) := by
  by_cases ha : env "ACCESS_TOKEN" = "" <;>
    by_cases ho : env "ORGANIZATION_ID" = "" <;>
      by_cases hp : p (env "ORGANIZATION_ID") = true <;>
        simp [loadConfig, ha, ho, hp]

/-! ## Claim C9: `secrets.SetEnvironmentVariables` -/

/-- C9: `SetEnvironmentVariables` never performs a `Setenv` for a secret
whose `Key` is empty; when every `Setenv` call for the non-empty keys
succeeds, it performs exactly those calls, in order, with each secret's
`Value`, and returns no error. -/
theorem setEnvironmentVariables_spec (setenvOk : String → String → Bool)
    (secrets : List (String × String)) :
    (∀ kv ∈ (setEnvironmentVariables setenvOk secrets).1, kv.1 ≠ "") ∧
      ((∀ s ∈ secrets, s.1 ≠ "" → setenvOk s.1 s.2 = true) →
        setEnvironmentVariables setenvOk secrets =
          (secrets.filter (fun s => !(s.1 == "")), none)) := by
  induction secrets with
  | nil =>
    refine ⟨fun kv h => absurd h (List.not_mem_nil kv), fun _ => rfl⟩
  | cons s rest ih =>
    constructor
    · intro kv hkv
      unfold setEnvironmentVariables at hkv
      by_cases hs : s.1 = ""
      · rw [if_pos hs] at hkv
        exact ih.1 kv hkv
      · rw [if_neg hs] at hkv
        by_cases hok : setenvOk s.1 s.2
        · rw [if_pos hok] at hkv
          rcases List.mem_cons.mp hkv with rfl | hkv
          · exact hs
          · exact ih.1 kv hkv
        · rw [if_neg hok] at hkv
          exact absurd hkv (List.not_mem_nil kv)
    · intro hall
      unfold setEnvironmentVariables
      by_cases hs : s.1 = ""
      · rw [if_pos hs,
          ih.2 (fun q hq => hall q (List.mem_cons_of_mem s hq))]
        simp [List.filter_cons, hs]
      · rw [if_neg hs,
          if_pos (hall s (List.mem_cons_self s rest) hs),
          ih.2 (fun q hq => hall q (List.mem_cons_of_mem s hq))]
        simp [List.filter_cons, hs]

/-- Closed check for `setEnvironmentVariables_spec` on a list with one
empty-key secret and two set-able secrets. -/
theorem setEnvironmentVariables_spec_witness :
    (∀ kv ∈ (setEnvironmentVariables okAll secretsW).1, kv.1 ≠ "") ∧
      setEnvironmentVariables okAll secretsW =
        (secretsW.filter (fun s => !(s.1 == "")), none) :=
  ⟨(setEnvironmentVariables_spec okAll secretsW).1,
   (setEnvironmentVariables_spec okAll secretsW).2 (by decide)⟩

/-! ## Claim C10: build output path -/

/-- C10: For every GOOS/GOARCH pair, the mage `build` helper writes the
output binary to `.builds/lrag_<GOOS>_<GOARCH>`, appending `".exe"` to that
path exactly when GOOS is `"windows"`. -/
theorem build_output_path (goos goarch : String) :
    (build goos goarch).output =
      ".builds/lrag_" ++ goos ++ "_" ++ goarch ++
        (if goos = "windows" then ".exe" else "") := by
  have hlit : ".builds" ++ "/" ++ "lrag" ++ "_" = ".builds/lrag_" := by decide
  simp only [build, filepathJoin, binDir, binaryName]
  by_cases h : goos = "windows"
  · rw [if_pos h, if_pos h]
    simp only [← String.append_assoc]
    rw [hlit]
  · rw [if_neg h, if_neg h]
    simp only [← String.append_assoc]
    rw [hlit, String.append_empty]

end LightRag
